import Mathlib

/-!
Verification development for the symbolic fill-in counter of
`apps/NDReorder/count_nnz_fillin.h`.

The file embeds:

* the symbolic-only route `count_nnz_fillin(const rxmesh::SparseMatrix<T>&)`
  (an elimination-tree walk over a compressed-row pattern, returning
  `2 * nnz + n`), faithfully including the zero-initialized working arrays
  `parent`, `tags`, `nonZerosPerCol` of `std::vector<int>`;
* the numeric-backend route `count_nnz_fillin(const EigeMatT&, h_permute)`;
  the Eigen backend itself (`permute_symm_to_fullsymm`, `SimplicialLLT`) is
  an external library, modelled from the spec where noted;
* instrumented variants that additionally record the tag events and the
  `parent` writes performed by the walks, together with projection lemmas
  showing they compute the same state;
* a bounds-and-fuel checked variant of the symbolic route used to show the
  inner parent-chasing loop terminates and stays in bounds.
-/

namespace NDReorder

/-- Compressed-row sparsity pattern, mirroring the `row_ptr()`/`col_idx()`
accessors of `rxmesh::SparseMatrix` used by `count_nnz_fillin`. -/
structure CSR where
  n : Nat
  row_ptr : List Nat
  col_idx : List Nat

/-- Total array read, modelling C array indexing `a[i]` on an int array
(out-of-range reads, undefined in the source, default to 0). -/
def geti (l : List Nat) (i : Nat) : Nat :=
  l.getD i 0

/-- The call-local working arrays of the symbolic route and the running
fill count: `parent`, `tags`, `nonZerosPerCol` (all `std::vector<int>`,
zero-initialized) and `nnz`. -/
structure EtState where
  parent : Nat → Int
  tags : Nat → Int
  nzCol : Nat → Int
  nnz : Nat

/-- Pointwise array update `a[i] = x`. -/
def upd (f : Nat → Int) (i : Nat) (x : Int) : Nat → Int :=
  fun j => if j = i then x else f j

/-- `std::vector<int> parent(size)` etc.: zero-initialized arrays, zero
fill count. -/
def initState : EtState :=
  ⟨fun _ => 0, fun _ => 0, fun _ => 0, 0⟩

/-- The inner loop of the symbolic route:
`for (; tags[c] != r; c = parent[c]) { if (parent[c] == -1) parent[c] = r;
nonZerosPerCol[c]++; nnz++; tags[c] = r; }`.
The loop of the source has no fuel; the fuel argument only bounds the
recursion depth and is chosen large enough (`n + 1`) that it is never
exhausted (see the checked variant below). -/
def walk (r : Nat) : Nat → Nat → EtState → EtState
  | 0, _, st => st
  | fuel + 1, c, st =>
    if st.tags c = (r : Int) then st
    else if st.parent c = -1 then
      walk r fuel ((upd st.parent c (r : Int) c).toNat)
        ⟨upd st.parent c (r : Int), upd st.tags c (r : Int),
         upd st.nzCol c (st.nzCol c + 1), st.nnz + 1⟩
    else
      walk r fuel ((st.parent c).toNat)
        ⟨st.parent, upd st.tags c (r : Int), upd st.nzCol c (st.nzCol c + 1), st.nnz + 1⟩

/-- One iteration of the middle loop: read `c = col_idx[i]` and, when
`c < r`, follow the path from `c` in the elimination tree. -/
def scanEntry (m : CSR) (r : Nat) (st : EtState) (i : Nat) : EtState :=
  let c := geti m.col_idx i
  if c < r then walk r (m.n + 1) c st else st

/-- The body of the outer loop for row `r`: initialize
`parent[r] = -1; tags[r] = r; nonZerosPerCol[r] = 0;` and scan the stored
entries `col_idx[row_ptr[r] .. row_ptr[r+1])`. -/
def processRow (m : CSR) (st : EtState) (r : Nat) : EtState :=
  let st0 : EtState := ⟨upd st.parent r (-1), upd st.tags r (r : Int), upd st.nzCol r 0, st.nnz⟩
  let s := geti m.row_ptr r
  let e := geti m.row_ptr (r + 1)
  (List.range' s (e - s)).foldl (scanEntry m r) st0

/-- State after processing rows `0 .. k-1`. -/
def runUpTo (m : CSR) (k : Nat) : EtState :=
  (List.range k).foldl (processRow m) initState

/-- State after the outer loop `for (int r = 0; r < size; ++r)`. -/
def runRows (m : CSR) : EtState :=
  runUpTo m m.n

/-- The symbolic-only route `count_nnz_fillin(const rxmesh::SparseMatrix<T>&)`:
`return 2 * nnz + mat.rows();`. -/
def count_nnz_fillin (m : CSR) : Int :=
  2 * ((runRows m).nnz : Int) + (m.n : Int)

/-- The column indices stored for row `r`, i.e.
`col_idx[row_ptr[r] .. row_ptr[r+1])` in order. -/
def rowCols (m : CSR) (r : Nat) : List Nat :=
  (List.range' (geti m.row_ptr r) (geti m.row_ptr (r + 1) - geti m.row_ptr r)).map
    (geti m.col_idx)

/-! ### Sparsity patterns and the numeric-backend route

The Eigen overload of `count_nnz_fillin` consumes a generic sparse matrix,
of which only the sparsity pattern matters for the nonzero count. We model
a pattern as its dimension plus a structural-nonzero predicate. -/

/-- An `n × n` sparsity pattern: `mem i j` iff position `(i, j)` is a
structural nonzero. Only indices below `n` are ever consulted. -/
structure Pattern where
  n : Nat
  mem : Nat → Nat → Bool

/-- The pattern is symmetric on the `n × n` square. -/
@[reducible]
def Pattern.SymmOn (A : Pattern) : Prop :=
  ∀ i < A.n, ∀ j < A.n, A.mem i j = A.mem j i

/-- Stored columns of row `r` in the canonical (sorted, duplicate-free)
compressed-row representation of a pattern. -/
def patRow (A : Pattern) (r : Nat) : List Nat :=
  (List.range A.n).filter (fun c => A.mem r c)

/-- Canonical compressed-row representation of a pattern: rows in order,
columns sorted, `row_ptr` the prefix sums of the row lengths. -/
def csrOfPattern (A : Pattern) : CSR :=
  ⟨A.n,
   (List.range (A.n + 1)).map
     (fun r => (((List.range r).map (fun q => (patRow A q).length)).sum)),
   (List.range A.n).foldr (fun r acc => patRow A r ++ acc) []⟩

/-- Modelled from the spec (the Eigen internal
`permute_symm_to_fullsymm<Eigen::Lower>` is external library code, §4.1 of
the spec): read the lower triangle of the stored symmetric pattern, send
each stored entry `(a, b)`, `b ≤ a`, to `(perm a, perm b)`, and
reconstruct the fully symmetric (both-triangle) pattern. -/
def permute_symm_to_fullsymm (A : Pattern) (perm : Nat → Nat) : Pattern :=
  ⟨A.n,
   fun i j =>
     (List.range A.n).any (fun a =>
       (List.range A.n).any (fun b =>
         A.mem a b && decide (b ≤ a) &&
           ((i == perm a && j == perm b) || (i == perm b && j == perm a))))⟩

/-- Modelled from the spec (§4.1): applying a permutation `π` to a pattern
relabels every stored entry `(a, b)` to `(π a, π b)`. -/
def applyPermutation (A : Pattern) (perm : Nat → Nat) : Pattern :=
  ⟨A.n,
   fun i j =>
     (List.range A.n).any (fun a =>
       (List.range A.n).any (fun b =>
         A.mem a b && (i == perm a) && (j == perm b)))⟩

/-- The numeric-backend route
`count_nnz_fillin(const EigeMatT&, std::vector<I>&, std::string)`.
The wrapper itself is source code: build the permuted full-symmetric
pattern, run the backend factorization, return `-1` plus a diagnostic
(`RXMESH_ERROR`, second component `true`) if `solver.info() != Success`,
else return `solver.matrixL().nestedExpression().nonZeros()`.
Modelled from the spec: the backend (`Eigen::SimplicialLLT`) is external
library code; its success status is numeric and is taken here as the
argument `backendOk`, and on success the nonzero count of its lower factor
is the symbolic count of the permuted pattern — the strict-lower fill
entries found by the elimination-tree pass (the source of that pass is
itself `Eigen::SimplicialCholeskyBase::analyzePattern_preordered`) plus
one diagonal entry per row. -/
def count_nnz_fillin_eigen (A : Pattern) (perm : Nat → Nat) (backendOk : Bool) :
    Int × Bool :=
  if backendOk then
    (((runRows (csrOfPattern (permute_symm_to_fullsymm A perm))).nnz : Int) + (A.n : Int),
     false)
  else
    (-1, true)

/-! ### Basic facts about the walk -/

@[simp]
theorem upd_same (f : Nat → Int) (i : Nat) (x : Int) : upd f i x i = x := by
  simp [upd]

theorem upd_ne (f : Nat → Int) (i : Nat) (x : Int) {j : Nat} (h : j ≠ i) :
    upd f i x j = f j := by
  simp [upd, h]

/-- Every `tags` cell is either untouched by a walk or holds the current
row index afterwards. -/
theorem walk_tags_shape (r : Nat) :
    ∀ fuel c st v, (walk r fuel c st).tags v = st.tags v ∨
      (walk r fuel c st).tags v = (r : Int) := by
  intro fuel
  induction fuel with
  | zero => intro c st v; exact Or.inl rfl
  | succ fuel ih =>
    intro c st v
    rw [walk]
    by_cases htc : st.tags c = (r : Int)
    · simp only [htc, if_pos rfl]; exact Or.inl rfl
    · rw [if_neg htc]
      by_cases hpc : st.parent c = -1
      · rw [if_pos hpc]
        set st1 : EtState :=
          ⟨upd st.parent c (r : Int), upd st.tags c (r : Int),
           upd st.nzCol c (st.nzCol c + 1), st.nnz + 1⟩ with hst1
        rcases ih ((upd st.parent c (r : Int) c).toNat) st1 v with h | h
        · by_cases hvc : v = c
          · subst hvc
            rw [h]; right; simp [st1]
          · rw [h]; left
            rw [show st1.tags v = upd st.tags c (r : Int) v from rfl, upd_ne _ _ _ hvc]
        · exact Or.inr h
      · rw [if_neg hpc]
        set st1 : EtState :=
          ⟨st.parent, upd st.tags c (r : Int),
           upd st.nzCol c (st.nzCol c + 1), st.nnz + 1⟩ with hst1
        rcases ih ((st.parent c).toNat) st1 v with h | h
        · by_cases hvc : v = c
          · subst hvc; rw [h]; right; simp [st1]
          · rw [h]; left
            rw [show st1.tags v = upd st.tags c (r : Int) v from rfl, upd_ne _ _ _ hvc]
        · exact Or.inr h

/-- A `parent` cell is either untouched by a walk, or was `-1` (unknown)
and holds the current row index afterwards. -/
theorem walk_parent_shape (r : Nat) :
    ∀ fuel c st v, (walk r fuel c st).parent v = st.parent v ∨
      (st.parent v = -1 ∧ (walk r fuel c st).parent v = (r : Int)) := by
  intro fuel
  induction fuel with
  | zero => intro c st v; exact Or.inl rfl
  | succ fuel ih =>
    intro c st v
    rw [walk]
    by_cases htc : st.tags c = (r : Int)
    · rw [if_pos htc]; exact Or.inl rfl
    · rw [if_neg htc]
      by_cases hpc : st.parent c = -1
      · rw [if_pos hpc]
        set st1 : EtState :=
          ⟨upd st.parent c (r : Int), upd st.tags c (r : Int),
           upd st.nzCol c (st.nzCol c + 1), st.nnz + 1⟩ with hst1
        rcases ih ((upd st.parent c (r : Int) c).toNat) st1 v with h | h
        · by_cases hvc : v = c
          · subst hvc
            right
            exact ⟨hpc, by rw [h]; simp [st1]⟩
          · left; rw [h]
            rw [show st1.parent v = upd st.parent c (r : Int) v from rfl, upd_ne _ _ _ hvc]
        · right
          refine ⟨?_, h.2⟩
          have h1 := h.1
          rw [show st1.parent v = upd st.parent c (r : Int) v from rfl] at h1
          by_cases hvc : v = c
          · subst hvc; exact hpc
          · rw [upd_ne _ _ _ hvc] at h1; exact h1
      · rw [if_neg hpc]
        exact ih ((st.parent c).toNat)
          ⟨st.parent, upd st.tags c (r : Int), upd st.nzCol c (st.nzCol c + 1), st.nnz + 1⟩ v

/-- Nodes already tagged with the current row stay tagged. -/
theorem walk_tags_mono (r : Nat) (fuel c : Nat) (st : EtState) {v : Nat}
    (h : st.tags v = (r : Int)) : (walk r fuel c st).tags v = (r : Int) := by
  rcases walk_tags_shape r fuel c st v with h' | h'
  · rw [h', h]
  · exact h'

/-- A `parent` cell that is already determined is never overwritten by a
walk. -/
theorem walk_parent_keep (r : Nat) (fuel c : Nat) (st : EtState) {v : Nat}
    (h : st.parent v ≠ -1) : (walk r fuel c st).parent v = st.parent v := by
  rcases walk_parent_shape r fuel c st v with h' | h'
  · exact h'
  · exact absurd h'.1 h

/-- The running fill count never decreases. -/
theorem walk_nnz_mono (r : Nat) :
    ∀ fuel c st, st.nnz ≤ (walk r fuel c st).nnz := by
  intro fuel
  induction fuel with
  | zero => intro c st; exact Nat.le_refl _
  | succ fuel ih =>
    intro c st
    rw [walk]
    by_cases htc : st.tags c = (r : Int)
    · rw [if_pos htc]
    · rw [if_neg htc]
      by_cases hpc : st.parent c = -1
      · rw [if_pos hpc]
        exact Nat.le_trans (Nat.le_succ _)
          (ih ((upd st.parent c (r : Int) c).toNat)
            ⟨upd st.parent c (r : Int), upd st.tags c (r : Int),
             upd st.nzCol c (st.nzCol c + 1), st.nnz + 1⟩)
      · rw [if_neg hpc]
        exact Nat.le_trans (Nat.le_succ _)
          (ih ((st.parent c).toNat)
            ⟨st.parent, upd st.tags c (r : Int),
             upd st.nzCol c (st.nzCol c + 1), st.nnz + 1⟩)

/-- After a walk with positive fuel, its start node is tagged with the
current row. -/
theorem walk_tag_start (r fuel c : Nat) (st : EtState) :
    (walk r (fuel + 1) c st).tags c = (r : Int) := by
  rw [walk]
  by_cases htc : st.tags c = (r : Int)
  · rw [if_pos htc]; exact htc
  · rw [if_neg htc]
    by_cases hpc : st.parent c = -1
    · rw [if_pos hpc]
      exact walk_tags_mono r _ _ _ (by simp)
    · rw [if_neg hpc]
      exact walk_tags_mono r _ _ _ (by simp)

/-- Mid-row bound on the partially built elimination tree: every node at
or below the current row either has no parent yet, or a parent strictly
above it and not above the current row. -/
def ParentBnd (r : Nat) (st : EtState) : Prop :=
  ∀ v : Nat, v ≤ r → st.parent v = -1 ∨ ((v : Int) < st.parent v ∧ st.parent v ≤ (r : Int))

/-- The nodes currently tagged with row `r`. -/
def tagged (n r : Nat) (st : EtState) : Finset Nat :=
  (Finset.range n).filter (fun v => st.tags v = (r : Int))

theorem mem_tagged {n r : Nat} {st : EtState} {v : Nat} :
    v ∈ tagged n r st ↔ v < n ∧ st.tags v = (r : Int) := by
  simp [tagged]

/-- Master walk lemma: the walk preserves the parent bound and the tag on
the current row, and each unit of fill count corresponds to exactly one
newly tagged node. -/
theorem walk_master (n r : Nat) (hrn : r < n) :
    ∀ fuel c st, c ≤ r → st.tags r = (r : Int) → ParentBnd r st →
      ParentBnd r (walk r fuel c st) ∧ (walk r fuel c st).tags r = (r : Int) ∧
      (walk r fuel c st).nnz + (tagged n r st).card =
        st.nnz + (tagged n r (walk r fuel c st)).card := by
  intro fuel
  induction fuel with
  | zero => intro c st _ htr hpb; exact ⟨hpb, htr, rfl⟩
  | succ fuel ih =>
    intro c st hc htr hpb
    rw [walk]
    by_cases htc : st.tags c = (r : Int)
    · rw [if_pos htc]; exact ⟨hpb, htr, rfl⟩
    · rw [if_neg htc]
      have hcr : c < r := by
        rcases Nat.lt_or_ge c r with h | h
        · exact h
        · exact absurd (by rw [Nat.le_antisymm hc h] at htc; exact absurd htr htc) (fun h => h)
      have hcn : c < n := Nat.lt_trans hcr hrn
      have hcner : c ≠ r := Nat.ne_of_lt hcr
      by_cases hpc : st.parent c = -1
      · rw [if_pos hpc]
        set st1 : EtState :=
          ⟨upd st.parent c (r : Int), upd st.tags c (r : Int),
           upd st.nzCol c (st.nzCol c + 1), st.nnz + 1⟩ with hst1
        have hcarg : (upd st.parent c (r : Int) c).toNat = r := by simp
        have h1 : ParentBnd r st1 := by
          intro v hv
          by_cases hvc : v = c
          · subst hvc
            right
            constructor
            · simp [st1]; exact_mod_cast hcr
            · simp [st1]
          · rcases hpb v hv with h | h
            · left; simpa [st1, upd_ne _ _ _ hvc] using h
            · right; simpa [st1, upd_ne _ _ _ hvc] using h
        have h2 : st1.tags r = (r : Int) := by
          simp [st1, upd_ne _ _ _ (Ne.symm hcner).symm, upd_ne]
          rw [upd_ne _ _ _ (fun h => hcner h.symm)]
          exact htr
        have h3 : tagged n r st1 = insert c (tagged n r st) := by
          ext v
          rw [Finset.mem_insert, mem_tagged, mem_tagged]
          constructor
          · rintro ⟨hvn, hvt⟩
            by_cases hvc : v = c
            · exact Or.inl hvc
            · right
              refine ⟨hvn, ?_⟩
              rw [show st1.tags v = upd st.tags c (r : Int) v from rfl, upd_ne _ _ _ hvc] at hvt
              exact hvt
          · rintro (hvc | ⟨hvn, hvt⟩)
            · subst hvc
              exact ⟨hcn, by simp [st1]⟩
            · by_cases hvc : v = c
              · subst hvc; exact ⟨hvn, by simp [st1]⟩
              · exact ⟨hvn, by rw [show st1.tags v = upd st.tags c (r : Int) v from rfl,
                  upd_ne _ _ _ hvc]; exact hvt⟩
        have hcnotin : c ∉ tagged n r st := by
          rw [mem_tagged]; rintro ⟨_, h⟩; exact htc h
        have hcard : (tagged n r st1).card = (tagged n r st).card + 1 := by
          rw [h3, Finset.card_insert_of_not_mem hcnotin]
        obtain ⟨ha, hb, hcnt⟩ := ih ((upd st.parent c (r : Int) c).toNat) st1
          (by rw [hcarg]) h2 h1
        refine ⟨ha, hb, ?_⟩
        have hnnz : st1.nnz = st.nnz + 1 := rfl
        omega
      · rw [if_neg hpc]
        rcases hpb c hc with h | h
        · exact absurd h hpc
        · set st1 : EtState :=
            ⟨st.parent, upd st.tags c (r : Int),
             upd st.nzCol c (st.nzCol c + 1), st.nnz + 1⟩ with hst1
          have hcarg : (st.parent c).toNat ≤ r := by
            have h0 : (0 : Int) ≤ st.parent c := le_of_lt (lt_of_le_of_lt (Int.ofNat_nonneg c) h.1)
            omega
          have h1 : ParentBnd r st1 := hpb
          have h2 : st1.tags r = (r : Int) := by
            rw [show st1.tags r = upd st.tags c (r : Int) r from rfl,
              upd_ne _ _ _ (fun hh => hcner hh.symm)]
            exact htr
          have h3 : tagged n r st1 = insert c (tagged n r st) := by
            ext v
            rw [Finset.mem_insert, mem_tagged, mem_tagged]
            constructor
            · rintro ⟨hvn, hvt⟩
              by_cases hvc : v = c
              · exact Or.inl hvc
              · right
                refine ⟨hvn, ?_⟩
                rw [show st1.tags v = upd st.tags c (r : Int) v from rfl, upd_ne _ _ _ hvc] at hvt
                exact hvt
            · rintro (hvc | ⟨hvn, hvt⟩)
              · subst hvc
                exact ⟨hcn, by simp [st1]⟩
              · by_cases hvc : v = c
                · subst hvc; exact ⟨hvn, by simp [st1]⟩
                · exact ⟨hvn, by rw [show st1.tags v = upd st.tags c (r : Int) v from rfl,
                    upd_ne _ _ _ hvc]; exact hvt⟩
          have hcnotin : c ∉ tagged n r st := by
            rw [mem_tagged]; rintro ⟨_, h'⟩; exact htc h'
          have hcard : (tagged n r st1).card = (tagged n r st).card + 1 := by
            rw [h3, Finset.card_insert_of_not_mem hcnotin]
          obtain ⟨ha, hb, hcnt⟩ := ih ((st.parent c).toNat) st1 hcarg h2 h1
          refine ⟨ha, hb, ?_⟩
          have hnnz : st1.nnz = st.nnz + 1 := rfl
          omega

/-! ### Row-level invariants -/

/-- Invariant holding while row `r` is being processed (after its
initialization step). -/
def MidInv (r : Nat) (st : EtState) : Prop :=
  ParentBnd r st ∧ st.tags r = (r : Int) ∧
  (∀ v : Nat, r < v → st.parent v = 0) ∧
  (∀ v : Nat, st.tags v = 0 ∨ (0 ≤ st.tags v ∧ st.tags v ≤ (r : Int)))

/-- Invariant holding between rows, after rows `0 .. k-1` have been
processed: initialized nodes have a parent strictly above them and below
`k` (or none), uninitialized nodes still hold the zero-initialized value,
and all tags are row indices below `k` (or the initial zero). -/
def RowsInv (k : Nat) (st : EtState) : Prop :=
  (∀ v : Nat, v < k → st.parent v = -1 ∨ ((v : Int) < st.parent v ∧ st.parent v < (k : Int))) ∧
  (∀ v : Nat, k ≤ v → st.parent v = 0) ∧
  (∀ v : Nat, st.tags v = 0 ∨ (0 ≤ st.tags v ∧ st.tags v < (k : Int)))

theorem rowsInv_init : RowsInv 0 initState := by
  refine ⟨fun v hv => absurd hv (Nat.not_lt_zero v), fun v _ => rfl, fun v => Or.inl rfl⟩

/-- A walk preserves the mid-row invariant. -/
theorem walk_midinv (r fuel c : Nat) (st : EtState) (hc : c ≤ r) (hm : MidInv r st) :
    MidInv r (walk r fuel c st) := by
  obtain ⟨hpb, htr, hhi, htg⟩ := hm
  obtain ⟨hpb', htr', _⟩ := walk_master (r + 1) r (Nat.lt_succ_self r) fuel c st hc htr hpb
  refine ⟨hpb', htr', ?_, ?_⟩
  · intro v hv
    rcases walk_parent_shape r fuel c st v with h | h
    · rw [h]; exact hhi v hv
    · rw [hhi v hv] at h
      exact absurd h.1 (by decide)
  · intro v
    rcases walk_tags_shape r fuel c st v with h | h
    · rw [h]; exact htg v
    · rw [h]
      exact Or.inr ⟨Int.ofNat_nonneg r, le_refl _⟩

/-- A single middle-loop iteration preserves the mid-row invariant. -/
theorem scanEntry_midinv (m : CSR) (r : Nat) (st : EtState) (i : Nat) (hm : MidInv r st) :
    MidInv r (scanEntry m r st i) := by
  rw [scanEntry]
  by_cases hc : geti m.col_idx i < r
  · rw [if_pos hc]
    exact walk_midinv r (m.n + 1) _ st (Nat.le_of_lt hc) hm
  · rw [if_neg hc]
    exact hm

theorem fold_scan_midinv (m : CSR) (r : Nat) :
    ∀ (l : List Nat) (st : EtState), MidInv r st →
      MidInv r (l.foldl (scanEntry m r) st) := by
  intro l
  induction l with
  | nil => intro st hm; exact hm
  | cons i l ih =>
    intro st hm
    exact ih _ (scanEntry_midinv m r st i hm)

/-- Row initialization takes the between-rows invariant to the mid-row
invariant. -/
theorem init_midinv (r : Nat) (st : EtState) (h : RowsInv r st) :
    MidInv r ⟨upd st.parent r (-1), upd st.tags r (r : Int), upd st.nzCol r 0, st.nnz⟩ := by
  obtain ⟨hlo, hhi, htg⟩ := h
  refine ⟨?_, by simp, ?_, ?_⟩
  · intro v hv
    by_cases hvr : v = r
    · subst hvr; left; simp
    · have hvlt : v < r := Nat.lt_of_le_of_ne hv hvr
      rcases hlo v hvlt with h' | h'
      · left; rw [show (⟨upd st.parent r (-1), upd st.tags r (r : Int), upd st.nzCol r 0,
          st.nnz⟩ : EtState).parent v = upd st.parent r (-1) v from rfl, upd_ne _ _ _ hvr]
        exact h'
      · right
        rw [show (⟨upd st.parent r (-1), upd st.tags r (r : Int), upd st.nzCol r 0,
          st.nnz⟩ : EtState).parent v = upd st.parent r (-1) v from rfl, upd_ne _ _ _ hvr]
        exact ⟨h'.1, le_of_lt h'.2⟩
  · intro v hv
    have hvr : v ≠ r := Nat.ne_of_gt hv
    rw [show (⟨upd st.parent r (-1), upd st.tags r (r : Int), upd st.nzCol r 0,
      st.nnz⟩ : EtState).parent v = upd st.parent r (-1) v from rfl, upd_ne _ _ _ hvr]
    exact hhi v (Nat.le_of_lt hv)
  · intro v
    by_cases hvr : v = r
    · subst hvr
      right
      rw [show (⟨upd st.parent v (-1), upd st.tags v (v : Int), upd st.nzCol v 0,
        st.nnz⟩ : EtState).tags v = upd st.tags v (v : Int) v from rfl, upd_same]
      exact ⟨Int.ofNat_nonneg v, le_refl _⟩
    · rw [show (⟨upd st.parent r (-1), upd st.tags r (r : Int), upd st.nzCol r 0,
        st.nnz⟩ : EtState).tags v = upd st.tags r (r : Int) v from rfl, upd_ne _ _ _ hvr]
      rcases htg v with h' | h'
      · exact Or.inl h'
      · exact Or.inr ⟨h'.1, le_of_lt h'.2⟩

/-- Processing row `r` is a fold of walks over the stored columns of
row `r` (with the strict-lower test applied per column). -/
theorem processRow_eq_fold_cols (m : CSR) (st : EtState) (r : Nat) :
    processRow m st r =
      (rowCols m r).foldl (fun acc c => if c < r then walk r (m.n + 1) c acc else acc)
        ⟨upd st.parent r (-1), upd st.tags r (r : Int), upd st.nzCol r 0, st.nnz⟩ := by
  rw [processRow, rowCols, List.foldl_map]
  rfl

/-- Mid-row invariant at the end of a row yields the between-rows
invariant for the next row. -/
theorem midinv_rowsInv (r : Nat) (st : EtState) (h : MidInv r st) : RowsInv (r + 1) st := by
  obtain ⟨hpb, _, hhi, htg⟩ := h
  refine ⟨?_, ?_, ?_⟩
  · intro v hv
    rcases hpb v (Nat.lt_succ_iff.mp hv) with h' | h'
    · exact Or.inl h'
    · right
      refine ⟨h'.1, lt_of_le_of_lt h'.2 ?_⟩
      exact_mod_cast Nat.lt_succ_self r
  · intro v hv
    exact hhi v (Nat.lt_of_lt_of_le (Nat.lt_succ_self r) hv)
  · intro v
    rcases htg v with h' | h'
    · exact Or.inl h'
    · right
      refine ⟨h'.1, lt_of_le_of_lt h'.2 ?_⟩
      exact_mod_cast Nat.lt_succ_self r

/-- Processing one row advances the between-rows invariant. -/
theorem processRow_rowsInv (m : CSR) (st : EtState) (r : Nat) (h : RowsInv r st) :
    RowsInv (r + 1) (processRow m st r) := by
  apply midinv_rowsInv
  rw [processRow]
  exact fold_scan_midinv m r _ _ (init_midinv r st h)

theorem runUpTo_succ (m : CSR) (k : Nat) :
    runUpTo m (k + 1) = processRow m (runUpTo m k) k := by
  rw [runUpTo, runUpTo, List.range_succ, List.foldl_append, List.foldl_cons, List.foldl_nil]

theorem runUpTo_rowsInv (m : CSR) : ∀ k, RowsInv k (runUpTo m k) := by
  intro k
  induction k with
  | zero => exact rowsInv_init
  | succ k ih =>
    rw [runUpTo_succ]
    exact processRow_rowsInv m _ k ih

/-! ### Diagonal-only patterns -/

theorem processRow_nnz_of_diag (m : CSR) (st : EtState) (r : Nat) (h : rowCols m r = [r]) :
    (processRow m st r).nnz = st.nnz := by
  rw [processRow_eq_fold_cols, h]
  simp

theorem runUpTo_nnz_of_diag (m : CSR) (h : ∀ r, r < m.n → rowCols m r = [r]) :
    ∀ k, k ≤ m.n → (runUpTo m k).nnz = 0 := by
  intro k
  induction k with
  | zero => intro _; rfl
  | succ k ih =>
    intro hk
    rw [runUpTo_succ, processRow_nnz_of_diag m _ k (h k (Nat.lt_of_succ_le hk))]
    exact ih (Nat.le_of_succ_le hk)

/-! ### Per-row lower bound on the fill count -/

/-- The strictly-lower-triangular stored columns of row `r`, in storage
order. -/
def lowCols (m : CSR) (r : Nat) : List Nat :=
  (rowCols m r).filter (fun c => decide (c < r))

/-- Folding the walks of one row over its stored columns: the mid-row
invariant is preserved, fill-count increments match newly tagged nodes
one for one, already tagged nodes stay tagged, and every scanned
strictly-lower column ends up tagged. -/
theorem fold_cols_count (m : CSR) (r : Nat) (hrn : r < m.n) :
    ∀ (l : List Nat) (st : EtState), MidInv r st →
      MidInv r (l.foldl (fun acc c => if c < r then walk r (m.n + 1) c acc else acc) st) ∧
      (l.foldl (fun acc c => if c < r then walk r (m.n + 1) c acc else acc) st).nnz +
          (tagged m.n r st).card =
        st.nnz +
          (tagged m.n r
            (l.foldl (fun acc c => if c < r then walk r (m.n + 1) c acc else acc) st)).card ∧
      (∀ v, st.tags v = (r : Int) →
        (l.foldl (fun acc c => if c < r then walk r (m.n + 1) c acc else acc) st).tags v =
          (r : Int)) ∧
      (∀ c ∈ l, c < r →
        (l.foldl (fun acc c => if c < r then walk r (m.n + 1) c acc else acc) st).tags c =
          (r : Int)) := by
  intro l
  induction l with
  | nil =>
    intro st hm
    refine ⟨hm, rfl, fun v h => h, ?_⟩
    intro c hc
    exact absurd hc (List.not_mem_nil c)
  | cons c l ih =>
    intro st hm
    rw [List.foldl_cons]
    by_cases hcr : c < r
    · rw [if_pos hcr]
      have hmaster := walk_master m.n r hrn (m.n + 1) c st (Nat.le_of_lt hcr) hm.2.1 hm.1
      have hm' : MidInv r (walk r (m.n + 1) c st) :=
        walk_midinv r (m.n + 1) c st (Nat.le_of_lt hcr) hm
      obtain ⟨iha, ihb, ihc, ihd⟩ := ih (walk r (m.n + 1) c st) hm'
      refine ⟨iha, ?_, ?_, ?_⟩
      · omega
      · intro v hv
        exact ihc v (walk_tags_mono r (m.n + 1) c st hv)
      · intro c' hc' hc'r
        rcases List.mem_cons.mp hc' with h | h
        · subst h
          exact ihc c' (walk_tag_start r m.n c' st)
        · exact ihd c' h hc'r
    · rw [if_neg hcr]
      obtain ⟨iha, ihb, ihc, ihd⟩ := ih st hm
      refine ⟨iha, ihb, ihc, ?_⟩
      intro c' hc' hc'r
      rcases List.mem_cons.mp hc' with h | h
      · subst h; exact absurd hc'r hcr
      · exact ihd c' h hc'r

/-- Processing row `r` increases the fill count by at least the number of
distinct strictly-lower stored columns of row `r`. -/
theorem processRow_nnz_ge (m : CSR) (st : EtState) (r : Nat) (hrn : r < m.n)
    (h : RowsInv r st) :
    st.nnz + (lowCols m r).toFinset.card ≤ (processRow m st r).nnz := by
  rw [processRow_eq_fold_cols]
  set st0 : EtState :=
    ⟨upd st.parent r (-1), upd st.tags r (r : Int), upd st.nzCol r 0, st.nnz⟩ with hst0
  have hmid0 : MidInv r st0 := init_midinv r st h
  obtain ⟨hfm, hfcnt, hfpres, hftag⟩ := fold_cols_count m r hrn (rowCols m r) st0 hmid0
  set stF := (rowCols m r).foldl
    (fun acc c => if c < r then walk r (m.n + 1) c acc else acc) st0 with hstF
  have hS : insert r ((lowCols m r).toFinset) ⊆ tagged m.n r stF := by
    intro v hv
    rcases Finset.mem_insert.mp hv with hvr | hvS
    · subst hvr
      exact mem_tagged.mpr ⟨hrn, hfm.2.1⟩
    · rw [List.mem_toFinset, lowCols, List.mem_filter] at hvS
      obtain ⟨hvmem, hvlt⟩ := hvS
      have hvlt' : v < r := of_decide_eq_true hvlt
      exact mem_tagged.mpr ⟨Nat.lt_trans hvlt' hrn, hftag v hvmem hvlt'⟩
  have hrnotS : r ∉ (lowCols m r).toFinset := by
    rw [List.mem_toFinset, lowCols, List.mem_filter]
    rintro ⟨_, hlt⟩
    exact absurd (of_decide_eq_true hlt) (Nat.lt_irrefl r)
  have hcardS : (lowCols m r).toFinset.card + 1 ≤ (tagged m.n r stF).card := by
    have := Finset.card_le_card hS
    rw [Finset.card_insert_of_not_mem hrnotS] at this
    omega
  have hnnz0 : st0.nnz = st.nnz := rfl
  rcases Nat.eq_zero_or_pos r with hr0 | hrpos
  · subst hr0
    have hSempty : (lowCols m 0).toFinset.card = 0 := by
      rw [Finset.card_eq_zero]
      ext v
      rw [List.mem_toFinset, lowCols, List.mem_filter]
      simp
    have hsub : tagged m.n 0 st0 ⊆ tagged m.n 0 stF := by
      intro v hv
      obtain ⟨hvn, hvt⟩ := mem_tagged.mp hv
      exact mem_tagged.mpr ⟨hvn, hfpres v hvt⟩
    have := Finset.card_le_card hsub
    omega
  · have htag0 : tagged m.n r st0 = {r} := by
      ext v
      rw [mem_tagged, Finset.mem_singleton]
      constructor
      · rintro ⟨hvn, hvt⟩
        by_cases hvr : v = r
        · exact hvr
        · rw [show st0.tags v = upd st.tags r (r : Int) v from rfl, upd_ne _ _ _ hvr] at hvt
          rcases h.2.2 v with h' | h'
          · rw [hvt] at h'
            have : (r : Int) ≠ 0 := by exact_mod_cast Nat.ne_of_gt hrpos
            exact absurd h' this
          · rw [hvt] at h'
            exact absurd h'.2 (lt_irrefl _)
      · intro hvr
        subst hvr
        exact ⟨hrn, by rw [show st0.tags v = upd st.tags v (v : Int) v from rfl, upd_same]⟩
    rw [htag0, Finset.card_singleton] at hfcnt
    omega

/-- Running the first `k` rows accumulates at least the total number of
distinct strictly-lower stored columns of those rows. -/
theorem runUpTo_nnz_ge (m : CSR) :
    ∀ k, k ≤ m.n →
      (Finset.range k).sum (fun r => (lowCols m r).toFinset.card) ≤ (runUpTo m k).nnz := by
  intro k
  induction k with
  | zero => intro _; simp [runUpTo, initState]
  | succ k ih =>
    intro hk
    rw [runUpTo_succ, Finset.sum_range_succ]
    have h1 := processRow_nnz_ge m (runUpTo m k) k (Nat.lt_of_succ_le hk)
      (runUpTo_rowsInv m k)
    have h2 := ih (Nat.le_of_succ_le hk)
    omega

/-! ### Counting stored entries -/

/-- The strictly-upper-triangular stored columns of row `r`. -/
def upCols (m : CSR) (r : Nat) : List Nat :=
  (rowCols m r).filter (fun c => decide (r < c))

/-- The total number of stored entries (both triangles and the diagonal). -/
def nnzStored (m : CSR) : Nat :=
  (Finset.range m.n).sum (fun r => (rowCols m r).length)

/-- The stored strictly-lower entry positions as a set of pairs. -/
def lowPairs (m : CSR) : Finset (Nat × Nat) :=
  (Finset.range m.n ×ˢ Finset.range m.n).filter
    (fun p => p.2 < p.1 ∧ p.2 ∈ rowCols m p.1)

/-- The stored strictly-upper entry positions as a set of pairs. -/
def upPairs (m : CSR) : Finset (Nat × Nat) :=
  (Finset.range m.n ×ˢ Finset.range m.n).filter
    (fun p => p.1 < p.2 ∧ p.2 ∈ rowCols m p.1)

theorem length_filter_trichotomy (r : Nat) :
    ∀ l : List Nat,
      l.length = (l.filter (fun c => decide (c < r))).length +
        (l.filter (fun c => decide (c = r))).length +
        (l.filter (fun c => decide (r < c))).length := by
  intro l
  induction l with
  | nil => rfl
  | cons a l ih =>
    simp only [List.filter_cons, List.length_cons]
    rcases Nat.lt_trichotomy a r with h | h | h
    · have h1 : ¬a = r := Nat.ne_of_lt h
      have h2 : ¬r < a := Nat.lt_asymm h
      simp [h, h1, h2]
      omega
    · subst h
      have h2 : ¬a < a := Nat.lt_irrefl a
      simp [h2]
      omega
    · have h1 : ¬a = r := (Nat.ne_of_lt h).symm
      have h2 : ¬a < r := Nat.lt_asymm h
      simp [h, h1, h2]
      omega

theorem filter_eq_length_le_one {l : List Nat} (r : Nat) (h : l.Nodup) :
    (l.filter (fun c => decide (c = r))).length ≤ 1 := by
  induction l with
  | nil => exact Nat.zero_le 1
  | cons a l ih =>
    rw [List.nodup_cons] at h
    by_cases har : a = r
    · subst har
      rw [List.filter_cons, decide_eq_true rfl]
      have hnone : l.filter (fun c => decide (c = a)) = [] := by
        rw [List.filter_eq_nil_iff]
        intro b hb hba
        rw [of_decide_eq_true hba] at hb
        exact h.1 hb
      simp [hnone]
    · rw [List.filter_cons, decide_eq_false har]
      exact ih h.2

theorem lowPairs_card (m : CSR)
    (hcol : ∀ r, r < m.n → ∀ c ∈ rowCols m r, c < m.n) :
    (lowPairs m).card =
      (Finset.range m.n).sum (fun r => (lowCols m r).toFinset.card) := by
  have hmem : ∀ p ∈ lowPairs m, Prod.fst p ∈ Finset.range m.n := by
    intro p hp
    rw [lowPairs, Finset.mem_filter, Finset.mem_product] at hp
    exact hp.1.1
  rw [Finset.card_eq_sum_card_fiberwise hmem]
  apply Finset.sum_congr rfl
  intro r hr
  rw [Finset.mem_range] at hr
  have himg : (lowPairs m).filter (fun p => p.1 = r) =
      ((lowCols m r).toFinset).image (fun c => (r, c)) := by
    ext p
    rw [Finset.mem_filter, lowPairs, Finset.mem_filter, Finset.mem_product,
      Finset.mem_image]
    constructor
    · rintro ⟨⟨⟨_, h2⟩, h3, h4⟩, h5⟩
      refine ⟨p.2, ?_, ?_⟩
      · rw [List.mem_toFinset, lowCols, List.mem_filter]
        rw [h5] at h4 h3
        exact ⟨h4, decide_eq_true h3⟩
      · rw [← h5]
    · rintro ⟨c, hc, hcp⟩
      rw [List.mem_toFinset, lowCols, List.mem_filter] at hc
      have hclt : c < r := of_decide_eq_true hc.2
      subst hcp
      refine ⟨⟨⟨?_, ?_⟩, hclt, hc.1⟩, rfl⟩
      · rw [Finset.mem_range]; exact hr
      · rw [Finset.mem_range]; exact hcol r hr c hc.1
  rw [himg, Finset.card_image_of_injective _ (fun a b hab => by
    injection hab)]

theorem upPairs_card (m : CSR)
    (hcol : ∀ r, r < m.n → ∀ c ∈ rowCols m r, c < m.n) :
    (upPairs m).card =
      (Finset.range m.n).sum (fun r => (upCols m r).toFinset.card) := by
  have hmem : ∀ p ∈ upPairs m, Prod.fst p ∈ Finset.range m.n := by
    intro p hp
    rw [upPairs, Finset.mem_filter, Finset.mem_product] at hp
    exact hp.1.1
  rw [Finset.card_eq_sum_card_fiberwise hmem]
  apply Finset.sum_congr rfl
  intro r hr
  rw [Finset.mem_range] at hr
  have himg : (upPairs m).filter (fun p => p.1 = r) =
      ((upCols m r).toFinset).image (fun c => (r, c)) := by
    ext p
    rw [Finset.mem_filter, upPairs, Finset.mem_filter, Finset.mem_product,
      Finset.mem_image]
    constructor
    · rintro ⟨⟨⟨_, h2⟩, h3, h4⟩, h5⟩
      refine ⟨p.2, ?_, ?_⟩
      · rw [List.mem_toFinset, upCols, List.mem_filter]
        rw [h5] at h4 h3
        exact ⟨h4, decide_eq_true h3⟩
      · rw [← h5]
    · rintro ⟨c, hc, hcp⟩
      rw [List.mem_toFinset, upCols, List.mem_filter] at hc
      have hclt : r < c := of_decide_eq_true hc.2
      subst hcp
      refine ⟨⟨⟨?_, ?_⟩, hclt, hc.1⟩, rfl⟩
      · rw [Finset.mem_range]; exact hr
      · rw [Finset.mem_range]; exact hcol r hr c hc.1
  rw [himg, Finset.card_image_of_injective _ (fun a b hab => by
    injection hab)]

/-- On a structurally symmetric pattern, the stored strictly-upper and
strictly-lower entry sets have the same size (pair the two triangles by
transposition). -/
theorem upPairs_card_eq_lowPairs_card (m : CSR)
    (hsym : ∀ r, r < m.n → ∀ c, c < m.n → (c ∈ rowCols m r ↔ r ∈ rowCols m c)) :
    (upPairs m).card = (lowPairs m).card := by
  apply Finset.card_bij (fun p _ => (p.2, p.1))
  · intro p hp
    rw [upPairs, Finset.mem_filter, Finset.mem_product, Finset.mem_range,
      Finset.mem_range] at hp
    rw [lowPairs, Finset.mem_filter, Finset.mem_product, Finset.mem_range,
      Finset.mem_range]
    refine ⟨⟨hp.1.2, hp.1.1⟩, hp.2.1, ?_⟩
    exact (hsym p.1 hp.1.1 p.2 hp.1.2).mp hp.2.2
  · intro p₁ h₁ p₂ h₂ heq
    have ha : p₁.2 = p₂.2 := congrArg Prod.fst heq
    have hb : p₁.1 = p₂.1 := congrArg Prod.snd heq
    exact Prod.ext hb ha
  · intro q hq
    rw [lowPairs, Finset.mem_filter, Finset.mem_product, Finset.mem_range,
      Finset.mem_range] at hq
    refine ⟨(q.2, q.1), ?_, rfl⟩
    rw [upPairs, Finset.mem_filter, Finset.mem_product, Finset.mem_range,
      Finset.mem_range]
    refine ⟨⟨hq.1.2, hq.1.1⟩, hq.2.1, ?_⟩
    exact (hsym q.1 hq.1.1 q.2 hq.1.2).mp hq.2.2

/-- For a structurally symmetric pattern stored without duplicate entries,
the total number of stored entries is at most twice the total number of
distinct strictly-lower stored columns plus one diagonal slot per row. -/
theorem nnzStored_le (m : CSR)
    (hcol : ∀ r, r < m.n → ∀ c ∈ rowCols m r, c < m.n)
    (hnd : ∀ r, r < m.n → (rowCols m r).Nodup)
    (hsym : ∀ r, r < m.n → ∀ c, c < m.n → (c ∈ rowCols m r ↔ r ∈ rowCols m c)) :
    nnzStored m ≤
      2 * (Finset.range m.n).sum (fun r => (lowCols m r).toFinset.card) + m.n := by
  have hlow : ∀ r, r < m.n → (lowCols m r).length = (lowCols m r).toFinset.card := by
    intro r hr
    exact (List.toFinset_card_of_nodup ((hnd r hr).filter _)).symm
  have hup : ∀ r, r < m.n → (upCols m r).length = (upCols m r).toFinset.card := by
    intro r hr
    exact (List.toFinset_card_of_nodup ((hnd r hr).filter _)).symm
  have hsplit : nnzStored m =
      (Finset.range m.n).sum (fun r => (lowCols m r).length) +
      (Finset.range m.n).sum (fun r => ((rowCols m r).filter
        (fun c => decide (c = r))).length) +
      (Finset.range m.n).sum (fun r => (upCols m r).length) := by
    rw [nnzStored, ← Finset.sum_add_distrib, ← Finset.sum_add_distrib]
    apply Finset.sum_congr rfl
    intro r _
    exact length_filter_trichotomy r (rowCols m r)
  have hdiag : (Finset.range m.n).sum (fun r => ((rowCols m r).filter
      (fun c => decide (c = r))).length) ≤ m.n := by
    calc (Finset.range m.n).sum (fun r => ((rowCols m r).filter
        (fun c => decide (c = r))).length)
        ≤ (Finset.range m.n).sum (fun _ => 1) := by
          apply Finset.sum_le_sum
          intro r hr
          exact filter_eq_length_le_one r (hnd r (Finset.mem_range.mp hr))
      _ = m.n := by simp
  have hlowsum : (Finset.range m.n).sum (fun r => (lowCols m r).length) =
      (Finset.range m.n).sum (fun r => (lowCols m r).toFinset.card) :=
    Finset.sum_congr rfl (fun r hr => hlow r (Finset.mem_range.mp hr))
  have hupsum : (Finset.range m.n).sum (fun r => (upCols m r).length) =
      (Finset.range m.n).sum (fun r => (lowCols m r).toFinset.card) := by
    rw [Finset.sum_congr rfl (fun r hr => hup r (Finset.mem_range.mp hr)),
      ← upPairs_card m hcol, upPairs_card_eq_lowPairs_card m hsym,
      lowPairs_card m hcol]
  omega

/-! ### Instrumented run: tag events and parent writes

`walkTr` is `walk` instrumented with two event logs: the second component
records `(v, r)` whenever a node `v` is tagged by row `r` (exactly one per
fill-count increment), the third records `(v, r)` whenever the write
`parent[v] = r` fires (the source writes `parent` only under the guard
`parent[c] == -1`). A projection lemma shows the state component computes
exactly `walk`. -/

def walkTr (r : Nat) : Nat → Nat → EtState → List (Nat × Nat) → List (Nat × Nat) →
    EtState × List (Nat × Nat) × List (Nat × Nat)
  | 0, _, st, tg, pw => (st, tg, pw)
  | fuel + 1, c, st, tg, pw =>
    if st.tags c = (r : Int) then (st, tg, pw)
    else if st.parent c = -1 then
      walkTr r fuel ((upd st.parent c (r : Int) c).toNat)
        ⟨upd st.parent c (r : Int), upd st.tags c (r : Int),
         upd st.nzCol c (st.nzCol c + 1), st.nnz + 1⟩
        (tg ++ [(c, r)]) (pw ++ [(c, r)])
    else
      walkTr r fuel ((st.parent c).toNat)
        ⟨st.parent, upd st.tags c (r : Int), upd st.nzCol c (st.nzCol c + 1), st.nnz + 1⟩
        (tg ++ [(c, r)]) pw

def scanEntryTr (m : CSR) (r : Nat)
    (a : EtState × List (Nat × Nat) × List (Nat × Nat)) (i : Nat) :
    EtState × List (Nat × Nat) × List (Nat × Nat) :=
  let c := geti m.col_idx i
  if c < r then walkTr r (m.n + 1) c a.1 a.2.1 a.2.2 else a

def processRowTr (m : CSR) (a : EtState × List (Nat × Nat) × List (Nat × Nat)) (r : Nat) :
    EtState × List (Nat × Nat) × List (Nat × Nat) :=
  (List.range' (geti m.row_ptr r) (geti m.row_ptr (r + 1) - geti m.row_ptr r)).foldl
    (scanEntryTr m r)
    (⟨upd a.1.parent r (-1), upd a.1.tags r (r : Int), upd a.1.nzCol r 0, a.1.nnz⟩,
     a.2.1, a.2.2)

def runUpToTr (m : CSR) (k : Nat) : EtState × List (Nat × Nat) × List (Nat × Nat) :=
  (List.range k).foldl (processRowTr m) (initState, [], [])

def runRowsTr (m : CSR) : EtState × List (Nat × Nat) × List (Nat × Nat) :=
  runUpToTr m m.n

/-- All tag events `(node, row)` of the run, in chronological order. -/
def tagEvents (m : CSR) : List (Nat × Nat) :=
  (runRowsTr m).2.1

/-- All fired `parent` writes `(node, row)` of the run, in chronological
order. -/
def parentWrites (m : CSR) : List (Nat × Nat) :=
  (runRowsTr m).2.2

theorem walkTr_fst (r : Nat) :
    ∀ fuel c st tg pw, (walkTr r fuel c st tg pw).1 = walk r fuel c st := by
  intro fuel
  induction fuel with
  | zero => intro c st tg pw; rfl
  | succ fuel ih =>
    intro c st tg pw
    rw [walkTr, walk]
    by_cases htc : st.tags c = (r : Int)
    · rw [if_pos htc, if_pos htc]
    · rw [if_neg htc, if_neg htc]
      by_cases hpc : st.parent c = -1
      · rw [if_pos hpc, if_pos hpc]
        exact ih _ _ _ _
      · rw [if_neg hpc, if_neg hpc]
        exact ih _ _ _ _

theorem scanEntryTr_fst (m : CSR) (r : Nat)
    (a : EtState × List (Nat × Nat) × List (Nat × Nat)) (i : Nat) :
    (scanEntryTr m r a i).1 = scanEntry m r a.1 i := by
  rw [scanEntryTr, scanEntry]
  by_cases hc : geti m.col_idx i < r
  · rw [if_pos hc, if_pos hc]
    exact walkTr_fst r (m.n + 1) _ a.1 a.2.1 a.2.2
  · rw [if_neg hc, if_neg hc]

theorem fold_scanTr_fst (m : CSR) (r : Nat) :
    ∀ (l : List Nat) (a : EtState × List (Nat × Nat) × List (Nat × Nat)),
      (l.foldl (scanEntryTr m r) a).1 = l.foldl (scanEntry m r) a.1 := by
  intro l
  induction l with
  | nil => intro a; rfl
  | cons i l ih =>
    intro a
    rw [List.foldl_cons, List.foldl_cons, ih, scanEntryTr_fst]

theorem processRowTr_fst (m : CSR) (a : EtState × List (Nat × Nat) × List (Nat × Nat))
    (r : Nat) : (processRowTr m a r).1 = processRow m a.1 r := by
  rw [processRowTr, processRow, fold_scanTr_fst]

theorem runUpToTr_fst (m : CSR) : ∀ k, (runUpToTr m k).1 = runUpTo m k := by
  intro k
  induction k with
  | zero => rfl
  | succ k ih =>
    rw [runUpToTr, runUpTo, List.range_succ, List.foldl_append, List.foldl_append,
      List.foldl_cons, List.foldl_cons, List.foldl_nil, List.foldl_nil]
    rw [show (List.range k).foldl (processRowTr m) (initState, [], []) = runUpToTr m k
      from rfl, show (List.range k).foldl (processRow m) initState = runUpTo m k from rfl]
    rw [processRowTr_fst, ih]

theorem runRowsTr_fst (m : CSR) : (runRowsTr m).1 = runRows m :=
  runUpToTr_fst m m.n

/-- Each tag event corresponds to exactly one unit of fill count. -/
theorem walkTr_tag_len (r : Nat) :
    ∀ fuel c st tg pw,
      (walkTr r fuel c st tg pw).1.nnz + tg.length =
        st.nnz + (walkTr r fuel c st tg pw).2.1.length := by
  intro fuel
  induction fuel with
  | zero => intro c st tg pw; rfl
  | succ fuel ih =>
    intro c st tg pw
    rw [walkTr]
    by_cases htc : st.tags c = (r : Int)
    · rw [if_pos htc]
    · rw [if_neg htc]
      by_cases hpc : st.parent c = -1
      · rw [if_pos hpc]
        have h := ih ((upd st.parent c (r : Int) c).toNat)
          ⟨upd st.parent c (r : Int), upd st.tags c (r : Int),
           upd st.nzCol c (st.nzCol c + 1), st.nnz + 1⟩
          (tg ++ [(c, r)]) (pw ++ [(c, r)])
        rw [List.length_append] at h
        simp only [List.length_cons, List.length_nil] at h
        omega
      · rw [if_neg hpc]
        have h := ih ((st.parent c).toNat)
          ⟨st.parent, upd st.tags c (r : Int), upd st.nzCol c (st.nzCol c + 1), st.nnz + 1⟩
          (tg ++ [(c, r)]) pw
        rw [List.length_append] at h
        simp only [List.length_cons, List.length_nil] at h
        omega

theorem scanEntryTr_tag_len (m : CSR) (r : Nat)
    (a : EtState × List (Nat × Nat) × List (Nat × Nat)) (i : Nat) :
    (scanEntryTr m r a i).1.nnz + a.2.1.length =
      a.1.nnz + (scanEntryTr m r a i).2.1.length := by
  rw [scanEntryTr]
  by_cases hc : geti m.col_idx i < r
  · rw [if_pos hc]
    exact walkTr_tag_len r (m.n + 1) _ a.1 a.2.1 a.2.2
  · rw [if_neg hc]

theorem fold_scanTr_tag_len (m : CSR) (r : Nat) :
    ∀ (l : List Nat) (a : EtState × List (Nat × Nat) × List (Nat × Nat)),
      (l.foldl (scanEntryTr m r) a).1.nnz + a.2.1.length =
        a.1.nnz + (l.foldl (scanEntryTr m r) a).2.1.length := by
  intro l
  induction l with
  | nil => intro a; rfl
  | cons i l ih =>
    intro a
    rw [List.foldl_cons]
    have h1 := scanEntryTr_tag_len m r a i
    have h2 := ih (scanEntryTr m r a i)
    omega

theorem processRowTr_tag_len (m : CSR)
    (a : EtState × List (Nat × Nat) × List (Nat × Nat)) (r : Nat) :
    (processRowTr m a r).1.nnz + a.2.1.length =
      a.1.nnz + (processRowTr m a r).2.1.length := by
  rw [processRowTr]
  exact fold_scanTr_tag_len m r _ _

theorem runUpToTr_tag_len (m : CSR) :
    ∀ k, (runUpToTr m k).1.nnz = (runUpToTr m k).2.1.length := by
  intro k
  induction k with
  | zero => rfl
  | succ k ih =>
    rw [runUpToTr, List.range_succ, List.foldl_append, List.foldl_cons, List.foldl_nil]
    rw [show (List.range k).foldl (processRowTr m) (initState, [], []) = runUpToTr m k
      from rfl]
    have h := processRowTr_tag_len m (runUpToTr m k) k
    omega

/-- The fill count accumulated by the run equals the number of tag events. -/
theorem runRows_nnz_eq_tagEvents (m : CSR) :
    (runRows m).nnz = (tagEvents m).length := by
  rw [← runRowsTr_fst, tagEvents]
  exact runUpToTr_tag_len m m.n

/-! ### The parent-write log determines the parent array -/

/-- The row recorded by the first (and, as proved below, only) write to
`parent[v]` in the log, or `-1` if no write to `v` was logged. -/
def pwLookup (pw : List (Nat × Nat)) (v : Nat) : Int :=
  match pw.find? (fun p => p.1 == v) with
  | some p => (p.2 : Int)
  | none => -1

/-- Invariant tying the write log to the `parent` array while row `r` is
being processed: every logged write is to a node strictly below its row
and no later than `r`, no node is written twice, and for initialized
nodes the array agrees with the log. -/
def MidPw (r : Nat) (st : EtState) (pw : List (Nat × Nat)) : Prop :=
  (∀ p ∈ pw, p.1 < p.2 ∧ p.2 ≤ r) ∧
  (pw.map Prod.fst).Nodup ∧
  (∀ v : Nat, v ≤ r → st.parent v = pwLookup pw v)

/-- The same invariant between rows, after rows `0 .. k-1`. -/
def RunPw (k : Nat) (st : EtState) (pw : List (Nat × Nat)) : Prop :=
  (∀ p ∈ pw, p.1 < p.2 ∧ p.2 < k) ∧
  (pw.map Prod.fst).Nodup ∧
  (∀ v : Nat, v < k → st.parent v = pwLookup pw v)

theorem pwLookup_of_find?_none {pw : List (Nat × Nat)} {v : Nat}
    (h : pw.find? (fun p => p.1 == v) = none) : pwLookup pw v = -1 := by
  rw [pwLookup, h]

theorem pwLookup_of_find?_some {pw : List (Nat × Nat)} {v : Nat} {p : Nat × Nat}
    (h : pw.find? (fun p => p.1 == v) = some p) : pwLookup pw v = (p.2 : Int) := by
  rw [pwLookup, h]

theorem find?_none_of_pwLookup_neg {pw : List (Nat × Nat)} {v : Nat}
    (hb : ∀ p ∈ pw, p.1 < p.2) (h : pwLookup pw v = -1) :
    pw.find? (fun p => p.1 == v) = none := by
  cases hfind : pw.find? (fun p => p.1 == v) with
  | none => rfl
  | some p =>
    exfalso
    rw [pwLookup_of_find?_some hfind] at h
    have hp := List.mem_of_find?_eq_some hfind
    have hlt := hb p hp
    omega

theorem not_mem_map_fst_of_find?_none {pw : List (Nat × Nat)} {v : Nat}
    (h : pw.find? (fun p => p.1 == v) = none) : v ∉ pw.map Prod.fst := by
  rw [List.find?_eq_none] at h
  intro hv
  rw [List.mem_map] at hv
  obtain ⟨p, hp, hpv⟩ := hv
  exact (h p hp) (by rw [hpv]; exact beq_self_eq_true v)

theorem pwLookup_append_self {pw : List (Nat × Nat)} {c r : Nat}
    (hnone : pw.find? (fun p => p.1 == c) = none) :
    pwLookup (pw ++ [(c, r)]) c = (r : Int) := by
  have hsingle : List.find? (fun p => p.1 == c) [(c, r)] = some (c, r) := by
    simp [List.find?]
  have happ : (pw ++ [(c, r)]).find? (fun p => p.1 == c) = some (c, r) := by
    rw [List.find?_append, hnone, hsingle]
    rfl
  rw [pwLookup_of_find?_some happ]

theorem pwLookup_append_other {pw : List (Nat × Nat)} {c r v : Nat} (hv : v ≠ c) :
    pwLookup (pw ++ [(c, r)]) v = pwLookup pw v := by
  have hpa : (((c, r) : Nat × Nat).1 == v) = false :=
    beq_eq_false_iff_ne.mpr (fun h => hv h.symm)
  have hsingle : List.find? (fun p => p.1 == v) [(c, r)] = none := by
    simp only [List.find?, hpa]
  rw [pwLookup, pwLookup, List.find?_append, hsingle]
  cases hfind : pw.find? (fun p => p.1 == v) with
  | some p => rfl
  | none => rfl

theorem midPw_parentBnd (r : Nat) (st : EtState) (pw : List (Nat × Nat))
    (h : MidPw r st pw) : ParentBnd r st := by
  intro v hv
  have hchar := h.2.2 v hv
  cases hfind : pw.find? (fun p => p.1 == v) with
  | none =>
    left
    rw [hchar, pwLookup_of_find?_none hfind]
  | some p =>
    right
    rw [hchar, pwLookup_of_find?_some hfind]
    have hp := List.mem_of_find?_eq_some hfind
    have hpv : p.1 = v := by
      have := List.find?_some hfind
      simpa using this
    obtain ⟨hlt, hle⟩ := h.1 p hp
    rw [hpv] at hlt
    exact ⟨by exact_mod_cast hlt, by exact_mod_cast hle⟩

/-- A walk preserves the write-log invariant: every `parent` write it
performs is logged, is to a fresh node, and is to a node strictly below
the current row. -/
theorem walkTr_pw (r : Nat) :
    ∀ fuel c st tg pw, c ≤ r → st.tags r = (r : Int) → MidPw r st pw →
      MidPw r (walkTr r fuel c st tg pw).1 (walkTr r fuel c st tg pw).2.2 ∧
      (walkTr r fuel c st tg pw).1.tags r = (r : Int) := by
  intro fuel
  induction fuel with
  | zero => intro c st tg pw _ htr hm; exact ⟨hm, htr⟩
  | succ fuel ih =>
    intro c st tg pw hc htr hm
    rw [walkTr]
    by_cases htc : st.tags c = (r : Int)
    · rw [if_pos htc]; exact ⟨hm, htr⟩
    · rw [if_neg htc]
      have hcr : c < r := by
        rcases Nat.lt_or_ge c r with h | h
        · exact h
        · rw [Nat.le_antisymm hc h] at htc
          exact absurd htr htc
      have hcner : c ≠ r := Nat.ne_of_lt hcr
      by_cases hpc : st.parent c = -1
      · rw [if_pos hpc]
        have hlook : pwLookup pw c = -1 := by rw [← hm.2.2 c hc]; exact hpc
        have hnone : pw.find? (fun p => p.1 == c) = none :=
          find?_none_of_pwLookup_neg (fun p hp => (hm.1 p hp).1) hlook
        have hfresh : c ∉ pw.map Prod.fst := not_mem_map_fst_of_find?_none hnone
        have hm1 : MidPw r
            ⟨upd st.parent c (r : Int), upd st.tags c (r : Int),
             upd st.nzCol c (st.nzCol c + 1), st.nnz + 1⟩ (pw ++ [(c, r)]) := by
          refine ⟨?_, ?_, ?_⟩
          · intro p hp
            rcases List.mem_append.mp hp with h | h
            · exact hm.1 p h
            · rw [List.mem_singleton] at h
              subst h
              exact ⟨hcr, le_refl r⟩
          · rw [List.map_append, List.map_singleton]
            rw [List.nodup_append]
            refine ⟨hm.2.1, List.nodup_singleton c, ?_⟩
            intro x hx hx1
            rw [List.mem_singleton] at hx1
            subst hx1
            exact hfresh hx
          · intro v hv
            by_cases hvc : v = c
            · subst hvc
              rw [show (⟨upd st.parent v (r : Int), upd st.tags v (r : Int),
                upd st.nzCol v (st.nzCol v + 1), st.nnz + 1⟩ : EtState).parent v =
                upd st.parent v (r : Int) v from rfl, upd_same,
                pwLookup_append_self hnone]
            · rw [show (⟨upd st.parent c (r : Int), upd st.tags c (r : Int),
                upd st.nzCol c (st.nzCol c + 1), st.nnz + 1⟩ : EtState).parent v =
                upd st.parent c (r : Int) v from rfl, upd_ne _ _ _ hvc,
                pwLookup_append_other hvc]
              exact hm.2.2 v hv
        have htr1 : (⟨upd st.parent c (r : Int), upd st.tags c (r : Int),
            upd st.nzCol c (st.nzCol c + 1), st.nnz + 1⟩ : EtState).tags r = (r : Int) := by
          rw [show (⟨upd st.parent c (r : Int), upd st.tags c (r : Int),
            upd st.nzCol c (st.nzCol c + 1), st.nnz + 1⟩ : EtState).tags r =
            upd st.tags c (r : Int) r from rfl, upd_ne _ _ _ (Ne.symm hcner)]
          exact htr
        exact ih ((upd st.parent c (r : Int) c).toNat) _ _ _ (by simp) htr1 hm1
      · rw [if_neg hpc]
        have hpb : ParentBnd r st := midPw_parentBnd r st pw hm
        rcases hpb c hc with h | h
        · exact absurd h hpc
        · have hcarg : (st.parent c).toNat ≤ r := by
            have h0 : (0 : Int) ≤ st.parent c :=
              le_of_lt (lt_of_le_of_lt (Int.ofNat_nonneg c) h.1)
            omega
          have hm1 : MidPw r
              ⟨st.parent, upd st.tags c (r : Int),
               upd st.nzCol c (st.nzCol c + 1), st.nnz + 1⟩ pw := hm
          have htr1 : (⟨st.parent, upd st.tags c (r : Int),
              upd st.nzCol c (st.nzCol c + 1), st.nnz + 1⟩ : EtState).tags r = (r : Int) := by
            rw [show (⟨st.parent, upd st.tags c (r : Int),
              upd st.nzCol c (st.nzCol c + 1), st.nnz + 1⟩ : EtState).tags r =
              upd st.tags c (r : Int) r from rfl, upd_ne _ _ _ (Ne.symm hcner)]
            exact htr
          exact ih ((st.parent c).toNat) _ _ _ hcarg htr1 hm1

theorem scanEntryTr_pw (m : CSR) (r : Nat)
    (a : EtState × List (Nat × Nat) × List (Nat × Nat)) (i : Nat)
    (h : MidPw r a.1 a.2.2 ∧ a.1.tags r = (r : Int)) :
    MidPw r (scanEntryTr m r a i).1 (scanEntryTr m r a i).2.2 ∧
      (scanEntryTr m r a i).1.tags r = (r : Int) := by
  rw [scanEntryTr]
  by_cases hc : geti m.col_idx i < r
  · rw [if_pos hc]
    exact walkTr_pw r (m.n + 1) _ a.1 a.2.1 a.2.2 (Nat.le_of_lt hc) h.2 h.1
  · rw [if_neg hc]
    exact h

theorem fold_scanTr_pw (m : CSR) (r : Nat) :
    ∀ (l : List Nat) (a : EtState × List (Nat × Nat) × List (Nat × Nat)),
      MidPw r a.1 a.2.2 ∧ a.1.tags r = (r : Int) →
      MidPw r (l.foldl (scanEntryTr m r) a).1 (l.foldl (scanEntryTr m r) a).2.2 ∧
        (l.foldl (scanEntryTr m r) a).1.tags r = (r : Int) := by
  intro l
  induction l with
  | nil => intro a h; exact h
  | cons i l ih =>
    intro a h
    rw [List.foldl_cons]
    exact ih _ (scanEntryTr_pw m r a i h)

theorem runPw_init_midPw (r : Nat) (st : EtState) (pw : List (Nat × Nat))
    (h : RunPw r st pw) :
    MidPw r ⟨upd st.parent r (-1), upd st.tags r (r : Int), upd st.nzCol r 0, st.nnz⟩ pw := by
  refine ⟨fun p hp => ⟨(h.1 p hp).1, le_of_lt (h.1 p hp).2⟩, h.2.1, ?_⟩
  intro v hv
  by_cases hvr : v = r
  · subst hvr
    rw [show (⟨upd st.parent v (-1), upd st.tags v (v : Int), upd st.nzCol v 0,
      st.nnz⟩ : EtState).parent v = upd st.parent v (-1) v from rfl, upd_same]
    have hnone : pw.find? (fun p => p.1 == v) = none := by
      rw [List.find?_eq_none]
      intro p hp
      have := h.1 p hp
      have hp1 : p.1 ≠ v := by omega
      simp [hp1]
    rw [pwLookup, hnone]
  · rw [show (⟨upd st.parent r (-1), upd st.tags r (r : Int), upd st.nzCol r 0,
      st.nnz⟩ : EtState).parent v = upd st.parent r (-1) v from rfl, upd_ne _ _ _ hvr]
    exact h.2.2 v (Nat.lt_of_le_of_ne hv hvr)

theorem midPw_runPw (r : Nat) (st : EtState) (pw : List (Nat × Nat))
    (h : MidPw r st pw) : RunPw (r + 1) st pw := by
  refine ⟨fun p hp => ⟨(h.1 p hp).1, Nat.lt_succ_of_le (h.1 p hp).2⟩, h.2.1, ?_⟩
  intro v hv
  exact h.2.2 v (Nat.lt_succ_iff.mp hv)

theorem processRowTr_pw (m : CSR) (a : EtState × List (Nat × Nat) × List (Nat × Nat))
    (r : Nat) (h : RunPw r a.1 a.2.2) :
    RunPw (r + 1) (processRowTr m a r).1 (processRowTr m a r).2.2 := by
  rw [processRowTr]
  have hmid := runPw_init_midPw r a.1 a.2.2 h
  have hres := fold_scanTr_pw m r
    (List.range' (geti m.row_ptr r) (geti m.row_ptr (r + 1) - geti m.row_ptr r))
    (⟨upd a.1.parent r (-1), upd a.1.tags r (r : Int), upd a.1.nzCol r 0, a.1.nnz⟩,
     a.2.1, a.2.2) ⟨hmid, by simp⟩
  exact midPw_runPw r _ _ hres.1

theorem runUpToTr_pw (m : CSR) :
    ∀ k, RunPw k (runUpToTr m k).1 (runUpToTr m k).2.2 := by
  intro k
  induction k with
  | zero =>
    refine ⟨fun p hp => absurd hp (List.not_mem_nil p), List.nodup_nil, ?_⟩
    intro v hv
    exact absurd hv (Nat.not_lt_zero v)
  | succ k ih =>
    rw [runUpToTr, List.range_succ, List.foldl_append, List.foldl_cons, List.foldl_nil]
    rw [show (List.range k).foldl (processRowTr m) (initState, [], []) = runUpToTr m k
      from rfl]
    exact processRowTr_pw m (runUpToTr m k) k ih

/-! ### Bounds- and fuel-checked variant of the symbolic route

`walkCk` performs the same computation as `walk` but returns `none` if the
inner loop would read one of the working arrays at an index outside
`[0, nb)`, would follow a negative parent index, or would fail to reach a
node tagged with the current row within the fuel. The equivalence theorem
shows that on the actual runs none of these ever happens. -/

def walkCk (nb r : Nat) : Nat → Nat → EtState → Option EtState
  | 0, _, _ => none
  | fuel + 1, c, st =>
    if c < nb then
      if st.tags c = (r : Int) then some st
      else if st.parent c = -1 then
        if (0 : Int) ≤ upd st.parent c (r : Int) c then
          walkCk nb r fuel ((upd st.parent c (r : Int) c).toNat)
            ⟨upd st.parent c (r : Int), upd st.tags c (r : Int),
             upd st.nzCol c (st.nzCol c + 1), st.nnz + 1⟩
        else none
      else
        if (0 : Int) ≤ st.parent c then
          walkCk nb r fuel ((st.parent c).toNat)
            ⟨st.parent, upd st.tags c (r : Int), upd st.nzCol c (st.nzCol c + 1), st.nnz + 1⟩
        else none
    else none

def scanEntryCk (m : CSR) (r : Nat) (st : EtState) (i : Nat) : Option EtState :=
  let c := geti m.col_idx i
  if c < r then walkCk m.n r (m.n + 1) c st else some st

def processRowCk (m : CSR) (st : EtState) (r : Nat) : Option EtState :=
  (List.range' (geti m.row_ptr r) (geti m.row_ptr (r + 1) - geti m.row_ptr r)).foldl
    (fun acc i => acc.bind (fun st' => scanEntryCk m r st' i))
    (some ⟨upd st.parent r (-1), upd st.tags r (r : Int), upd st.nzCol r 0, st.nnz⟩)

def runUpToCk (m : CSR) (k : Nat) : Option EtState :=
  (List.range k).foldl (fun acc r => acc.bind (fun st => processRowCk m st r))
    (some initState)

/-- The checked symbolic route: `none` signals an out-of-bounds array
access or a non-terminating inner loop. -/
def count_nnz_fillin_checked (m : CSR) : Option Int :=
  (runUpToCk m m.n).map (fun st => 2 * (st.nnz : Int) + (m.n : Int))

theorem walkCk_eq (nb r : Nat) (hrn : r < nb) :
    ∀ fuel c st, c ≤ r → r - c < fuel → st.tags r = (r : Int) → ParentBnd r st →
      walkCk nb r fuel c st = some (walk r fuel c st) := by
  intro fuel
  induction fuel with
  | zero =>
    intro c st _ hfuel _ _
    exact absurd hfuel (Nat.not_lt_zero _)
  | succ fuel ih =>
    intro c st hc hfuel htr hpb
    rw [walkCk, walk]
    rw [if_pos (Nat.lt_of_le_of_lt hc hrn)]
    by_cases htc : st.tags c = (r : Int)
    · rw [if_pos htc, if_pos htc]
    · rw [if_neg htc, if_neg htc]
      have hcr : c < r := by
        rcases Nat.lt_or_ge c r with h | h
        · exact h
        · rw [Nat.le_antisymm hc h] at htc
          exact absurd htr htc
      have hcner : c ≠ r := Nat.ne_of_lt hcr
      by_cases hpc : st.parent c = -1
      · rw [if_pos hpc, if_pos hpc]
        rw [if_pos (by simp)]
        apply ih
        · simp
        · have : (upd st.parent c (r : Int) c).toNat = r := by simp
          omega
        · rw [show (⟨upd st.parent c (r : Int), upd st.tags c (r : Int),
            upd st.nzCol c (st.nzCol c + 1), st.nnz + 1⟩ : EtState).tags r =
            upd st.tags c (r : Int) r from rfl, upd_ne _ _ _ (Ne.symm hcner)]
          exact htr
        · intro v hv
          by_cases hvc : v = c
          · subst hvc
            right
            refine ⟨by simp; exact_mod_cast hcr, by simp⟩
          · rw [show (⟨upd st.parent c (r : Int), upd st.tags c (r : Int),
              upd st.nzCol c (st.nzCol c + 1), st.nnz + 1⟩ : EtState).parent v =
              upd st.parent c (r : Int) v from rfl, upd_ne _ _ _ hvc]
            exact hpb v hv
      · rw [if_neg hpc, if_neg hpc]
        rcases hpb c hc with h | h
        · exact absurd h hpc
        · have h0 : (0 : Int) ≤ st.parent c :=
            le_of_lt (lt_of_le_of_lt (Int.ofNat_nonneg c) h.1)
          rw [if_pos h0]
          apply ih
          · omega
          · omega
          · rw [show (⟨st.parent, upd st.tags c (r : Int),
              upd st.nzCol c (st.nzCol c + 1), st.nnz + 1⟩ : EtState).tags r =
              upd st.tags c (r : Int) r from rfl, upd_ne _ _ _ (Ne.symm hcner)]
            exact htr
          · exact hpb

theorem scanEntryCk_eq (m : CSR) (r : Nat) (st : EtState) (i : Nat) (hrn : r < m.n)
    (hm : MidInv r st) : scanEntryCk m r st i = some (scanEntry m r st i) := by
  rw [scanEntryCk, scanEntry]
  by_cases hc : geti m.col_idx i < r
  · rw [if_pos hc, if_pos hc]
    exact walkCk_eq m.n r hrn (m.n + 1) _ st (Nat.le_of_lt hc) (by omega) hm.2.1 hm.1
  · rw [if_neg hc, if_neg hc]

theorem fold_scanCk_eq (m : CSR) (r : Nat) (hrn : r < m.n) :
    ∀ (l : List Nat) (st : EtState), MidInv r st →
      l.foldl (fun acc i => acc.bind (fun st' => scanEntryCk m r st' i)) (some st) =
        some (l.foldl (scanEntry m r) st) := by
  intro l
  induction l with
  | nil => intro st _; rfl
  | cons i l ih =>
    intro st hm
    rw [List.foldl_cons, List.foldl_cons, Option.some_bind, scanEntryCk_eq m r st i hrn hm]
    exact ih _ (scanEntry_midinv m r st i hm)

theorem processRowCk_eq (m : CSR) (st : EtState) (r : Nat) (hrn : r < m.n)
    (h : RowsInv r st) : processRowCk m st r = some (processRow m st r) := by
  rw [processRowCk, processRow]
  exact fold_scanCk_eq m r hrn _ _ (init_midinv r st h)

theorem runUpToCk_eq (m : CSR) :
    ∀ k, k ≤ m.n → runUpToCk m k = some (runUpTo m k) := by
  intro k
  induction k with
  | zero => intro _; rfl
  | succ k ih =>
    intro hk
    rw [runUpToCk, runUpTo, List.range_succ, List.foldl_append, List.foldl_append,
      List.foldl_cons, List.foldl_cons, List.foldl_nil, List.foldl_nil]
    rw [show (List.range k).foldl (fun acc r => acc.bind (fun st => processRowCk m st r))
      (some initState) = runUpToCk m k from rfl,
      show (List.range k).foldl (processRow m) initState = runUpTo m k from rfl]
    rw [ih (Nat.le_of_succ_le hk), Option.some_bind]
    exact processRowCk_eq m _ k (Nat.lt_of_succ_le hk) (runUpTo_rowsInv m k)

/-- On every input, the checked run succeeds and computes the same state
as the unchecked run. -/
theorem checked_eq_unchecked (m : CSR) :
    count_nnz_fillin_checked m = some (count_nnz_fillin m) := by
  rw [count_nnz_fillin_checked, count_nnz_fillin, runUpToCk_eq m m.n (Nat.le_refl _)]
  rfl

/-! ### Pattern-level equivalences for the permuted routes -/

theorem fullsymm_id_eq (A : Pattern) (hsym : A.SymmOn) {i j : Nat}
    (hi : i < A.n) (hj : j < A.n) :
    (permute_symm_to_fullsymm A (fun x => x)).mem i j = A.mem i j := by
  cases hmem : A.mem i j with
  | true =>
    rw [permute_symm_to_fullsymm]
    rw [List.any_eq_true]
    rcases Nat.le_total j i with hle | hle
    · refine ⟨i, List.mem_range.mpr hi, ?_⟩
      rw [List.any_eq_true]
      refine ⟨j, List.mem_range.mpr hj, ?_⟩
      simp [hmem, hle]
    · refine ⟨j, List.mem_range.mpr hj, ?_⟩
      rw [List.any_eq_true]
      refine ⟨i, List.mem_range.mpr hi, ?_⟩
      have hji : A.mem j i = true := by rw [← hsym i hi j hj]; exact hmem
      simp [hji, hle]
  | false =>
    rw [Bool.eq_false_iff]
    intro h
    rw [permute_symm_to_fullsymm] at h
    rw [List.any_eq_true] at h
    obtain ⟨a, ha, h⟩ := h
    rw [List.any_eq_true] at h
    obtain ⟨b, hb, h⟩ := h
    rw [List.mem_range] at ha hb
    simp only [Bool.and_eq_true, Bool.or_eq_true, beq_iff_eq, decide_eq_true_eq] at h
    obtain ⟨⟨hab, hba⟩, hij⟩ := h
    rcases hij with ⟨hia, hjb⟩ | ⟨hib, hja⟩
    · subst hia; subst hjb
      rw [hmem] at hab
      exact Bool.false_ne_true hab
    · subst hib; subst hja
      rw [hsym j hj i hi] at hab
      rw [hmem] at hab
      exact Bool.false_ne_true hab

theorem fullsymm_applyPerm_eq (A : Pattern) (pf pr : Nat → Nat) (hsym : A.SymmOn)
    (hpf : ∀ x, x < A.n → pf x < A.n) (hpr : ∀ x, x < A.n → pr (pf x) = x)
    {i j : Nat} (hi : i < A.n) (hj : j < A.n) :
    (permute_symm_to_fullsymm (applyPermutation A pf) pr).mem i j = A.mem i j := by
  cases hmem : A.mem i j with
  | true =>
    rw [permute_symm_to_fullsymm]
    rw [List.any_eq_true]
    rcases Nat.le_total (pf j) (pf i) with hle | hle
    · refine ⟨pf i, List.mem_range.mpr (hpf i hi), ?_⟩
      rw [List.any_eq_true]
      refine ⟨pf j, List.mem_range.mpr (hpf j hj), ?_⟩
      have hq : (applyPermutation A pf).mem (pf i) (pf j) = true := by
        rw [applyPermutation]
        rw [List.any_eq_true]
        refine ⟨i, List.mem_range.mpr hi, ?_⟩
        rw [List.any_eq_true]
        refine ⟨j, List.mem_range.mpr hj, ?_⟩
        simp [hmem]
      simp [hq, hle, hpr i hi, hpr j hj]
    · refine ⟨pf j, List.mem_range.mpr (hpf j hj), ?_⟩
      rw [List.any_eq_true]
      refine ⟨pf i, List.mem_range.mpr (hpf i hi), ?_⟩
      have hji : A.mem j i = true := by rw [← hsym i hi j hj]; exact hmem
      have hq : (applyPermutation A pf).mem (pf j) (pf i) = true := by
        rw [applyPermutation]
        rw [List.any_eq_true]
        refine ⟨j, List.mem_range.mpr hj, ?_⟩
        rw [List.any_eq_true]
        refine ⟨i, List.mem_range.mpr hi, ?_⟩
        simp [hji]
      simp [hq, hle, hpr i hi, hpr j hj]
  | false =>
    rw [Bool.eq_false_iff]
    intro h
    rw [permute_symm_to_fullsymm] at h
    rw [List.any_eq_true] at h
    obtain ⟨a, ha, h⟩ := h
    rw [List.any_eq_true] at h
    obtain ⟨b, hb, h⟩ := h
    rw [List.mem_range] at ha hb
    simp only [Bool.and_eq_true, Bool.or_eq_true, beq_iff_eq, decide_eq_true_eq] at h
    obtain ⟨⟨hab, hba⟩, hij⟩ := h
    rw [applyPermutation] at hab
    rw [List.any_eq_true] at hab
    obtain ⟨u, hu, hab⟩ := hab
    rw [List.any_eq_true] at hab
    obtain ⟨v, hv, hab⟩ := hab
    rw [List.mem_range] at hu hv
    simp only [Bool.and_eq_true, beq_iff_eq] at hab
    obtain ⟨⟨huv, hau⟩, hbv⟩ := hab
    have hra : pr a = u := by rw [hau, hpr u hu]
    have hrb : pr b = v := by rw [hbv, hpr v hv]
    rcases hij with ⟨hia, hjb⟩ | ⟨hib, hja⟩
    · rw [hra] at hia
      rw [hrb] at hjb
      subst hia; subst hjb
      rw [hmem] at huv
      exact Bool.false_ne_true huv
    · rw [hrb] at hib
      rw [hra] at hja
      subst hib; subst hja
      rw [hsym j hj i hi] at huv
      rw [hmem] at huv
      exact Bool.false_ne_true huv

theorem patRow_congr (A B : Pattern) (hn : A.n = B.n)
    (h : ∀ i, i < A.n → ∀ j, j < A.n → A.mem i j = B.mem i j)
    (r : Nat) (hr : r < A.n) : patRow A r = patRow B r := by
  rw [patRow, patRow, ← hn]
  apply List.filter_congr
  intro c hc
  exact h r hr c (List.mem_range.mp hc)

theorem csrOfPattern_congr (A B : Pattern) (hn : A.n = B.n)
    (h : ∀ i, i < A.n → ∀ j, j < A.n → A.mem i j = B.mem i j) :
    csrOfPattern A = csrOfPattern B := by
  have hrow : ∀ r, r < A.n → patRow A r = patRow B r := patRow_congr A B hn h
  rw [csrOfPattern, csrOfPattern, ← hn]
  have h1 : ((List.range (A.n + 1)).map
      (fun r => (((List.range r).map (fun q => (patRow A q).length)).sum))) =
      ((List.range (A.n + 1)).map
      (fun r => (((List.range r).map (fun q => (patRow B q).length)).sum))) := by
    apply List.map_congr_left
    intro r hr
    rw [List.mem_range] at hr
    congr 1
    apply List.map_congr_left
    intro q hq
    rw [List.mem_range] at hq
    rw [hrow q (Nat.lt_of_lt_of_le hq (Nat.lt_succ_iff.mp hr))]
  have h2 : ∀ l : List Nat, (∀ r ∈ l, r < A.n) →
      l.foldr (fun r acc => patRow A r ++ acc) [] =
        l.foldr (fun r acc => patRow B r ++ acc) [] := by
    intro l
    induction l with
    | nil => intro _; rfl
    | cons r l ih =>
      intro hl
      rw [List.foldr_cons, List.foldr_cons, hrow r (hl r (List.mem_cons_self r l)),
        ih (fun x hx => hl x (List.mem_cons_of_mem r hx))]
  rw [h1, h2 (List.range A.n) (fun x hx => List.mem_range.mp hx)]

/-! ### Concrete example inputs -/

/-- The dense symmetric `2 × 2` pattern. -/
def patDense2 : Pattern := ⟨2, fun _ _ => true⟩

/-- The transposition of `0` and `1`. -/
def swap01 : Nat → Nat := fun x => if x = 0 then 1 else if x = 1 then 0 else x

/-- The `3 × 3` diagonal pattern in compressed-row form. -/
def diagCSR3 : CSR := ⟨3, [0, 1, 2, 3], [0, 1, 2]⟩

/-- The 4-node path graph's adjacency-plus-diagonal pattern in
compressed-row form. -/
def pathCSR4 : CSR := ⟨4, [0, 2, 5, 8, 10], [0, 1, 0, 1, 2, 1, 2, 3, 2, 3]⟩

/-- Relation between the two routes: on any pattern and permutation, the
symbolic route applied to the permuted full-symmetric pattern counts both
triangles plus the diagonal (`2 * fill + n`), while the numeric-backend
route reports the lower factor's stored entries (`fill + n`). -/
theorem eigen_route_symbolic (A : Pattern) (perm : Nat → Nat) :
    count_nnz_fillin (csrOfPattern (permute_symm_to_fullsymm A perm)) =
      2 * (count_nnz_fillin_eigen A perm true).1 - (A.n : Int) := by
  rw [count_nnz_fillin, count_nnz_fillin_eigen]
  simp only [if_pos]
  rw [show (csrOfPattern (permute_symm_to_fullsymm A perm)).n = A.n from rfl]
  ring

/-! ### Claim theorems -/

/-- C1, counterexample: on the dense symmetric `2 × 2` pattern with the
identity permutation the backend succeeds, yet the symbolic-only route
reports `4` (both triangles plus diagonal of the factor) while the
numeric-backend route reports `3` (stored entries of the lower factor
only), so the two routes do not return the same count. -/
theorem claim_C1_counterexample :
    count_nnz_fillin (csrOfPattern (permute_symm_to_fullsymm patDense2 (fun x => x))) ≠
      (count_nnz_fillin_eigen patDense2 (fun x => x) true).1 := by decide

/-- C1, amended: for every pattern and permutation, when the backend
succeeds, the symbolic-only route on the permuted full-symmetric pattern
returns twice the numeric-backend route's count minus the dimension; the
routes agree exactly on the strict-lower fill, but the symbolic route
doubles it and adds the diagonal while the backend route reports the lower
factor's stored entry count. -/
theorem claim_C1 (A : Pattern) (perm : Nat → Nat) :
    count_nnz_fillin (csrOfPattern (permute_symm_to_fullsymm A perm)) =
      2 * (count_nnz_fillin_eigen A perm true).1 - (A.n : Int) :=
  eigen_route_symbolic A perm

/-- C2, counterexample: on the dense symmetric `2 × 2` pattern,
`countFillinWithPermutation(P, identity)` returns `3` while
`countFillin(P)` returns `4`, so they are not equal. -/
theorem claim_C2_counterexample :
    (count_nnz_fillin_eigen patDense2 (fun x => x) true).1 ≠
      count_nnz_fillin (csrOfPattern patDense2) := by decide

/-- C2, amended: for every symmetric pattern `P`, the symbolic route
equals twice the identity-permutation numeric route minus the dimension:
`countFillin(P) = 2 * countFillinWithPermutation(P, identity) - n`. -/
theorem claim_C2 (A : Pattern) (hsym : A.SymmOn) :
    count_nnz_fillin (csrOfPattern A) =
      2 * (count_nnz_fillin_eigen A (fun x => x) true).1 - (A.n : Int) := by
  have hcsr : csrOfPattern (permute_symm_to_fullsymm A (fun x => x)) = csrOfPattern A :=
    csrOfPattern_congr _ _ rfl (fun i hi j hj => fullsymm_id_eq A hsym hi hj)
  rw [← hcsr]
  exact eigen_route_symbolic A (fun x => x)

/-- C2, witness at the dense symmetric `2 × 2` pattern. -/
theorem claim_C2_witness :
    count_nnz_fillin (csrOfPattern patDense2) =
      2 * (count_nnz_fillin_eigen patDense2 (fun x => x) true).1 - (patDense2.n : Int) :=
  claim_C2 patDense2 (by decide)

/-- C3: the symbolic route returns exactly twice the number of nodes
tagged during all row walks (each tagging is one discovered strict-lower
fill entry) plus `n` for the diagonal. -/
theorem claim_C3 (m : CSR) :
    count_nnz_fillin m = 2 * ((tagEvents m).length : Int) + (m.n : Int) := by
  rw [count_nnz_fillin, runRows_nnz_eq_tagEvents]

/-- C4: the permutation-taking route returns `-1` and emits a diagnostic
if and only if the backend factorization reports non-success (in the
model the failure branch never consults the factor count), and on success
it returns a nonnegative count. -/
theorem claim_C4 (A : Pattern) (perm : Nat → Nat) (ok : Bool) :
    (((count_nnz_fillin_eigen A perm ok).1 = -1 ∧
        (count_nnz_fillin_eigen A perm ok).2 = true) ↔ ok = false) ∧
    (ok = true → 0 ≤ (count_nnz_fillin_eigen A perm ok).1) := by
  cases ok with
  | false => simp [count_nnz_fillin_eigen]
  | true =>
    constructor
    · simp [count_nnz_fillin_eigen]
    · intro _
      rw [count_nnz_fillin_eigen]
      simp
      have h1 : (0 : Int) ≤ ((runRows (csrOfPattern
          (permute_symm_to_fullsymm A perm))).nnz : Int) := Int.ofNat_nonneg _
      have h2 : (0 : Int) ≤ (A.n : Int) := Int.ofNat_nonneg _
      omega

/-- C4, witness: on a concrete pattern with the backend succeeding, the
returned count is nonnegative. -/
theorem claim_C4_witness : 0 ≤ (count_nnz_fillin_eigen patDense2 (fun x => x) true).1 :=
  (claim_C4 patDense2 (fun x => x) true).2 rfl

/-- C5: on an `n × n` pattern whose rows each store exactly the diagonal
entry, the symbolic route returns exactly `n`. -/
theorem claim_C5 (m : CSR) (h : ∀ r, r < m.n → rowCols m r = [r]) :
    count_nnz_fillin m = (m.n : Int) := by
  rw [count_nnz_fillin, runRows, runUpTo_nnz_of_diag m h m.n (Nat.le_refl _)]
  simp

/-- C5, witness at the `3 × 3` diagonal pattern. -/
theorem claim_C5_witness : count_nnz_fillin diagCSR3 = (diagCSR3.n : Int) :=
  claim_C5 diagCSR3 (by decide)

/-- C6: for a structurally symmetric pattern stored without duplicate
entries and with in-range columns, the count returned by the symbolic
route is at least the number of stored structural nonzeros (both
triangles and the diagonal). -/
theorem claim_C6 (m : CSR)
    (hcol : ∀ r, r < m.n → ∀ c ∈ rowCols m r, c < m.n)
    (hnd : ∀ r, r < m.n → (rowCols m r).Nodup)
    (hsym : ∀ r, r < m.n → ∀ c, c < m.n → (c ∈ rowCols m r ↔ r ∈ rowCols m c)) :
    (nnzStored m : Int) ≤ count_nnz_fillin m := by
  have h1 := runUpTo_nnz_ge m m.n (Nat.le_refl _)
  have h2 := nnzStored_le m hcol hnd hsym
  rw [count_nnz_fillin, runRows]
  omega

/-- C6, witness at the 4-node path pattern. -/
theorem claim_C6_witness : (nnzStored pathCSR4 : Int) ≤ count_nnz_fillin pathCSR4 :=
  claim_C6 pathCSR4 (by decide) (by decide) (by decide)

/-- C7: applying a permutation to a symmetric pattern and then running the
permutation-taking route with the inverse permutation yields the same
count as running it on the original pattern with the identity
permutation. -/
theorem claim_C7 (A : Pattern) (pf pr : Nat → Nat) (ok : Bool) (hsym : A.SymmOn)
    (hpf : ∀ x, x < A.n → pf x < A.n) (hpr : ∀ x, x < A.n → pr (pf x) = x) :
    (count_nnz_fillin_eigen (applyPermutation A pf) pr ok).1 =
      (count_nnz_fillin_eigen A (fun x => x) ok).1 := by
  have hc : csrOfPattern (permute_symm_to_fullsymm (applyPermutation A pf) pr) =
      csrOfPattern (permute_symm_to_fullsymm A (fun x => x)) := by
    refine csrOfPattern_congr _ _ ?_ ?_
    · rfl
    · intro i hi j hj
      rw [fullsymm_applyPerm_eq A pf pr hsym hpf hpr hi hj,
        fullsymm_id_eq A hsym hi hj]
  cases ok with
  | false =>
    have h1 : (count_nnz_fillin_eigen (applyPermutation A pf) pr false).1 = -1 := rfl
    have h2 : (count_nnz_fillin_eigen A (fun x => x) false).1 = -1 := rfl
    rw [h1, h2]
  | true =>
    have h1 : (count_nnz_fillin_eigen (applyPermutation A pf) pr true).1 =
        ((runRows (csrOfPattern
            (permute_symm_to_fullsymm (applyPermutation A pf) pr))).nnz : Int) +
          ((applyPermutation A pf).n : Int) := rfl
    have h2 : (count_nnz_fillin_eigen A (fun x => x) true).1 =
        ((runRows (csrOfPattern (permute_symm_to_fullsymm A (fun x => x)))).nnz : Int) +
          (A.n : Int) := rfl
    have hn : (applyPermutation A pf).n = A.n := rfl
    rw [h1, h2, hc, hn]

/-- C7, witness: the dense symmetric `2 × 2` pattern relabeled by the
transposition of `0` and `1` (its own inverse). -/
theorem claim_C7_witness :
    (count_nnz_fillin_eigen (applyPermutation patDense2 swap01) swap01 true).1 =
      (count_nnz_fillin_eigen patDense2 (fun x => x) true).1 :=
  claim_C7 patDense2 swap01 swap01 true (by decide) (by decide) (by decide)

/-- C8: during one symbolic run, `parent[v]` is written at most once after
its initialization to `-1`: the logged writes are to pairwise distinct
nodes, each write is performed by a strictly later row, and the final
array holds, for every node, the row of its first (unique) logged write or
`-1` if the node was never written (a root). -/
theorem claim_C8 (m : CSR) :
    ((parentWrites m).map Prod.fst).Nodup ∧
    (∀ p ∈ parentWrites m, p.1 < p.2) ∧
    (∀ v, v < m.n → (runRows m).parent v = pwLookup (parentWrites m) v) := by
  have h := runUpToTr_pw m m.n
  refine ⟨h.2.1, fun p hp => (h.1 p hp).1, ?_⟩
  intro v hv
  rw [← runRowsTr_fst]
  exact h.2.2 v hv

/-- C8, witness at the 4-node path pattern. -/
theorem claim_C8_witness : ((parentWrites pathCSR4).map Prod.fst).Nodup :=
  (claim_C8 pathCSR4).1

/-- C10: on a compressed-row input satisfying the stated invariants, the
checked symbolic route (which returns `none` on any out-of-bounds working
array access, negative parent index, or fuel exhaustion in the inner
parent-chasing loop) terminates successfully and computes the same count
as the unchecked route. -/
theorem claim_C10 (m : CSR)
    (hlen : m.row_ptr.length = m.n + 1)
    (hmono : ∀ i, i < m.n → geti m.row_ptr i ≤ geti m.row_ptr (i + 1))
    (hcol : ∀ c ∈ m.col_idx, c < m.n) :
    count_nnz_fillin_checked m = some (count_nnz_fillin m) :=
  checked_eq_unchecked m

/-- C10, witness at the 4-node path pattern. -/
theorem claim_C10_witness :
    count_nnz_fillin_checked pathCSR4 = some (count_nnz_fillin pathCSR4) :=
  claim_C10 pathCSR4 (by decide) (by decide) (by decide)

end NDReorder
